import Mathlib

set_option maxRecDepth 100000

/-!
Verification of the `apply_cache_fix.py` patch script (repository
`eamaster/marketmind`).

The script reads one hard-coded file, applies three substitutions in order to
the in-memory text, and writes the file back only when the result differs from
the original:

* Fix 1: `re.sub(old_func, new_func, content, flags=re.DOTALL)` where
  `old_func` is a regex in which every metacharacter is backslash-escaped
  (so it denotes a fixed multi-line literal) and `new_func` is the literal
  replacement text.
* Fix 2 and Fix 3: `content.replace(old, new)` with exact literal fragments.

The embedding below models text as `List Char`.  Python's `str.replace` and
`re.sub` (with `count = 0`) both replace every leftmost non-overlapping
occurrence scanning left to right; `replaceAllAux` implements that scan with
an explicit fuel argument (one unit of fuel per consumed character, so
`s.length` fuel always suffices for a non-empty pattern).  The regex engine is
modelled only on the fragment of Python regex syntax the script exercises:
sequences of single-character atoms, namely backslash-escaped punctuation
literals, plain literal characters, and the dot metacharacter, whose
behaviour is the only thing the `re.DOTALL` flag changes.  `parseRegex`
rejects any other construct, and the script's concrete pattern parses
successfully (`parseRegex_old_func` below).
-/

/-- One single-character regex atom: a literal character, or the dot
metacharacter (whose semantics depend on the dot-matches-all flag). -/
inductive RAtom where
  | lit (c : Char)
  | dot
deriving DecidableEq, Repr

/-- Characters that Python's regex engine treats specially when unescaped.
`parseRegex` refuses them, so the model never silently misreads a pattern. -/
def regexMeta : List Char :=
  ['(', ')', '[', ']', '\x7b', '\x7d', '|', '*', '+', '?', '^', '$', '.']

/-- Parse the fragment of Python regex syntax used by the script: a sequence
of atoms, where a backslash escapes the next punctuation character into a
literal, an unescaped dot is the dot metacharacter, and every other unescaped
non-metacharacter stands for itself.  Escaped alphanumerics (character
classes such as a backslash followed by d) and unescaped metacharacters are
outside the modelled fragment and yield `none`. -/
def parseRegex : List Char → Option (List RAtom)
  | [] => some []
  | '\\' :: [] => none
  | '\\' :: c :: rest =>
    if c.isAlphanum then none
    else (parseRegex rest).map (fun as => RAtom.lit c :: as)
  | '.' :: rest => (parseRegex rest).map (fun as => RAtom.dot :: as)
  | c :: rest =>
    if c ∈ regexMeta then none
    else (parseRegex rest).map (fun as => RAtom.lit c :: as)

/-- Does one atom match one character?  `d` is the dot-matches-all flag
(`re.DOTALL`): with it, dot matches every character; without it, dot matches
every character except the newline. -/
def atomMatch (d : Bool) : RAtom → Char → Bool
  | RAtom.lit l, c => c == l
  | RAtom.dot, c => d || !(c == '\n')

/-- Try to match a sequence of atoms at the head of the text; on success
return the text that remains after the match. -/
def tryAtoms (d : Bool) : List RAtom → List Char → Option (List Char)
  | [], s => some s
  | _ :: _, [] => none
  | a :: ps, c :: s => if atomMatch d a c then tryAtoms d ps s else none

/-- Global leftmost non-overlapping substitution of a regex pattern, the
behaviour of Python's `re.sub` with `count = 0` on the modelled fragment.
`fuel` bounds the recursion; one unit per consumed character suffices when
the pattern is non-empty (the only case the script exercises). -/
def reSubAux (d : Bool) (pat : List RAtom) (repl : List Char) :
    Nat → List Char → List Char
  | _, [] => []
  | 0, s => s
  | fuel + 1, c :: s =>
    match tryAtoms d pat (c :: s), pat with
    | some rest, _ :: _ => repl ++ reSubAux d pat repl fuel rest
    | _, _ => c :: reSubAux d pat repl fuel s

/-- Global leftmost non-overlapping replacement of a literal pattern, the
behaviour of Python's `str.replace` for a non-empty pattern (the only case
the script exercises). -/
def replaceAllAux (pat repl : List Char) : Nat → List Char → List Char
  | _, [] => []
  | 0, s => s
  | fuel + 1, c :: s =>
    if pat.isPrefixOf (c :: s) && !pat.isEmpty then
      repl ++ replaceAllAux pat repl fuel (List.drop (pat.length - 1) s)
    else
      c :: replaceAllAux pat repl fuel s

/-- `str.replace`: replace every leftmost non-overlapping occurrence. -/
def strReplace (pat repl s : List Char) : List Char :=
  replaceAllAux pat repl s.length s

/-- Hard-coded target path of the script (module-level constant, a raw
Python string, so the backslashes are literal characters). -/
def FILE_PATH : String := "worker\\src\\integrations\\twelvedata.ts"

/-- The regex pattern of Fix 1 (`old_func` in the script), transcribed
verbatim from the raw triple-quoted string: every regex metacharacter in it
is backslash-escaped. -/
def old_func : String :=
  "function getCachedData<T>\\(key: string\\): T \\| null \\\x7b\n    const cached = cache\\.get\\(key\\);\n    if \\(cached && \\(Date\\.now\\(\\) - cached\\.timestamp\\) < CACHE_TTL\\) \\\x7b\n        const ageSeconds = Math\\.round\\(\\(Date\\.now\\(\\) - cached\\.timestamp\\) / 1000\\);\n        console\\.log\\(`\\[Cache\\] Hit for \\$\\\x7bkey\\\x7d \\(\\$\\\x7bageSeconds\\\x7ds old\\)`\\);\n        return cached\\.data;\n    \\\x7d\n    return null;\n\\\x7d"

/-- The replacement text of Fix 1 (`new_func` in the script), transcribed
verbatim. -/
def new_func : String :=
  "function getCachedData<T>(key: string, ignoreExpiry: boolean = false): T | null \x7b\n    const cached = cache.get(key);\n    if (!cached) return null;\n    \n    const ageSeconds = Math.round((Date.now() - cached.timestamp) / 1000);\n    \n    // When rate limited, return cache regardless of age\n    if (ignoreExpiry) \x7b\n        console.log(`[Cache] Hit for $\x7bkey\x7d ($\x7bageSeconds\x7ds old) - ignoring expiry`);\n        return cached.data;\n    \x7d\n    \n    // Normal: check TTL\n    if ((Date.now() - cached.timestamp) < CACHE_TTL) \x7b\n        console.log(`[Cache] Hit for $\x7bkey\x7d ($\x7bageSeconds\x7ds old)`);\n        return cached.data;\n    \x7d\n    \n    return null;\n\x7d"

/-- Literal fragment searched by Fix 2. -/
def fix2_old : String := "const cachedData = getCachedData<PricePoint[]>(cacheKey);"

/-- Literal replacement of Fix 2. -/
def fix2_new : String := "const cachedData = getCachedData<PricePoint[]>(cacheKey, true);"

/-- Literal fragment searched by Fix 3. -/
def fix3_old : String := "const cachedData = getCachedData<\x7b price: number; change: number; changePercent: number \x7d>(cacheKey);"

/-- Literal replacement of Fix 3. -/
def fix3_new : String := "const cachedData = getCachedData<\x7b price: number; change: number; changePercent: number \x7d>(cacheKey, true);"

/-- The parsed atom sequence of the Fix 1 pattern. -/
def oldAtoms : List RAtom := (parseRegex old_func.data).getD []

/-- The fixed literal text the Fix 1 pattern denotes (its atoms with the
escaping backslashes stripped).  Because the pattern contains no dot atom,
this list fully describes what the regex can match. -/
def oldLit : List Char :=
  oldAtoms.filterMap (fun a => match a with | RAtom.lit c => some c | RAtom.dot => none)

/-- Fix 1 of the script: `content = re.sub(old_func, new_func, content,
flags=re.DOTALL)`.  An unparseable pattern would raise in Python and is dead
here (`parseRegex_old_func` proves the pattern parses); the `none` branch
returns the text unchanged. -/
def fix1 (content : List Char) : List Char :=
  match parseRegex old_func.data with
  | some atoms => reSubAux true atoms new_func.data content.length content
  | none => content

/-- The same substitution run without the `re.DOTALL` flag (used to settle
the claim that the flag is required). -/
def fix1_nodot (content : List Char) : List Char :=
  match parseRegex old_func.data with
  | some atoms => reSubAux false atoms new_func.data content.length content
  | none => content

/-- Fix 2 of the script: `content = content.replace(fix2_old, fix2_new)`. -/
def fix2 (content : List Char) : List Char :=
  strReplace fix2_old.data fix2_new.data content

/-- Fix 3 of the script: `content = content.replace(fix3_old, fix3_new)`. -/
def fix3 (content : List Char) : List Char :=
  strReplace fix3_old.data fix3_new.data content

/-- The pure text transformation performed by `apply_fixes` between reading
and writing: the three substitutions applied in order to the evolving
content. -/
def apply_fixes_transform (content : List Char) : List Char :=
  let c1 := fix1 content
  let c2 := fix2 c1
  let c3 := fix3 c2
  c3

/-- The file system visible to the script: the single target file, which is
absent (reading raises) or holds some text, and a writability flag (writing
raises when false).  The model treats a failed write as leaving the previous
content in place; the script offers no atomicity guarantee for the write
itself and no claim below relies on the state after a failed write. -/
structure FS where
  file : Option (List Char)
  writable : Bool
deriving DecidableEq, Repr

/-- `apply_fixes()`: read the file, transform the text, and if it changed
write it back and return `True`; return `False` when nothing changed.
Exceptions (missing/unreadable file, failing write) are modelled by
`Except.error` and propagate to the caller. -/
def apply_fixes (fs : FS) : Except Unit Bool × FS :=
  match fs.file with
  | none => (Except.error (), fs)
  | some content =>
    let c := apply_fixes_transform content
    if c = content then (Except.ok false, fs)
    else if fs.writable then (Except.ok true, { fs with file := some c })
    else (Except.error (), fs)

/-- The `__main__` block: run `apply_fixes` inside a `try`, exit with code 0
on `True`, code 1 on `False`, and code 1 on any caught exception.  (Named
`main_block` because Lean reserves `main`.) -/
def main_block (fs : FS) : Nat × FS :=
  match apply_fixes fs with
  | (Except.ok true, fs') => (0, fs')
  | (Except.ok false, fs') => (1, fs')
  | (Except.error _, fs') => (1, fs')

/-- `Occurs pat s`: the pattern occurs (as a contiguous substring) somewhere
in `s`. -/
def Occurs (pat s : List Char) : Prop := ∃ i, pat <+: s.drop i

/-- Executable occurrence test. -/
def occursB (pat s : List Char) : Bool :=
  (List.range (s.length + 1)).any (fun i => pat.isPrefixOf (s.drop i))

/-- A platform, identified by its directory separator character. -/
inductive Platform where
  | windows
  | posix
deriving DecidableEq, Repr

/-- The directory separator of a platform. -/
def Platform.sep : Platform → Char
  | Platform.windows => '\\'
  | Platform.posix => '/'

/-- The separator-like characters appearing in a path string. -/
def sepChars (p : List Char) : List Char :=
  p.filter (fun c => c == '\\' || c == '/')

/-- A path is relative when it starts with neither kind of separator and
carries no drive-letter colon. -/
def isRelativePath (p : List Char) : Bool :=
  match p with
  | [] => true
  | c :: _ => !(c == '/') && !(c == '\\') && !(p.contains ':')

/-- Single-pass check that the only position where `pat` matches inside the
scanned text is `j` (used to discharge uniqueness hypotheses by evaluation
without re-dropping the text at every position). -/
def onlyAtAux (pat : List Char) (j : Nat) : Nat → List Char → Bool
  | _, [] => true
  | i, c :: t =>
    ((!(pat.isPrefixOf (c :: t))) || (i == j)) && onlyAtAux pat j (i + 1) t

/-- `onlyAt pat s j`: scanning `s` from the left, `pat` matches at no
position other than `j`. -/
def onlyAt (pat s : List Char) (j : Nat) : Bool := onlyAtAux pat j 0 s

/-- Side conditions under which replacing with `R` can never leave or create
an occurrence of `P`: `P` is non-empty, neither of `P` and `R` occurs inside
the other, no strict leading part of `P` can be completed by text ending in
a suffix of `R`, and no strict trailing part of `P` can be started by a
prefix of `R`.  All parts are decidable, so concrete instances are settled
by `decide`. -/
def NoReintro (P R : List Char) : Prop :=
  P ≠ [] ∧ occursB P R = false ∧ occursB R P = false ∧
    (∀ k, k < P.length → 0 < k → k ≤ R.length →
      R.drop (R.length - k) ≠ P.take k) ∧
    (∀ k, k < P.length → 0 < k → k ≤ R.length →
      R.take k ≠ P.drop (P.length - k))

instance (P R : List Char) : Decidable (NoReintro P R) := by
  unfold NoReintro
  infer_instance

/-- The unescaped Fix 1 pattern as a plain string literal; `oldLit_eq` below
proves it equal to `oldLit`, the literal extracted from the parsed pattern.
Concrete computations use this spelled-out form. -/
def oldLitStr : String :=
  "function getCachedData<T>(key: string): T | null \x7b\n    const cached = cache.get(key);\n    if (cached && (Date.now() - cached.timestamp) < CACHE_TTL) \x7b\n        const ageSeconds = Math.round((Date.now() - cached.timestamp) / 1000);\n        console.log(`[Cache] Hit for $\x7bkey\x7d ($\x7bageSeconds\x7ds old)`);\n        return cached.data;\n    \x7d\n    return null;\n\x7d"

/-- The minimal scenario input: exactly the old `getCachedData` function
body plus the two exact call-site fragments, separated by newlines. -/
def t_min : List Char :=
  oldLitStr.data ++ ("\n".data ++ (fix2_old.data ++ ("\n".data ++
    (fix3_old.data ++ "\n".data))))

/-- The text the minimal scenario is expected to produce: the new function
body and the two rewritten call sites, with the separators untouched. -/
def t_min_out : List Char :=
  new_func.data ++ ("\n".data ++ (fix2_new.data ++ ("\n".data ++
    (fix3_new.data ++ "\n".data))))

theorem parseRegex_old_func : parseRegex old_func.data = some oldAtoms := by
  rfl

theorem oldAtoms_all_lit : oldAtoms = oldLit.map RAtom.lit := by
  decide

theorem occurs_iff_occursB (pat s : List Char) :
    Occurs pat s ↔ occursB pat s = true := by
  constructor
  · rintro ⟨i, h⟩
    by_cases hi : i ≤ s.length
    · simp only [occursB, List.any_eq_true, List.mem_range]
      exact ⟨i, by omega, List.isPrefixOf_iff_prefix.mpr h⟩
    · have hd : s.drop i = [] := List.drop_eq_nil_iff.mpr (by omega)
      rw [hd] at h
      have hp : pat = [] := List.prefix_nil.mp h
      simp only [occursB, List.any_eq_true, List.mem_range]
      exact ⟨0, by omega, by simp [hp, List.isPrefixOf]⟩
  · intro h
    simp only [occursB, List.any_eq_true, List.mem_range] at h
    obtain ⟨i, _, hp⟩ := h
    exact ⟨i, List.isPrefixOf_iff_prefix.mp hp⟩

theorem not_occurs_iff_occursB (pat s : List Char) :
    ¬ Occurs pat s ↔ occursB pat s = false := by
  rw [occurs_iff_occursB]
  simp

theorem occurs_cons (pat : List Char) (c : Char) (t : List Char) :
    Occurs pat (c :: t) ↔ pat <+: c :: t ∨ Occurs pat t := by
  constructor
  · rintro ⟨i, h⟩
    cases i with
    | zero => exact Or.inl h
    | succ j => exact Or.inr ⟨j, by simpa using h⟩
  · rintro (h | ⟨j, h⟩)
    · exact ⟨0, h⟩
    · exact ⟨j + 1, by simpa using h⟩

theorem occurs_of_occurs_drop {pat s : List Char} (n : Nat) :
    Occurs pat (s.drop n) → Occurs pat s := by
  rintro ⟨i, h⟩
  rw [List.drop_drop] at h
  exact ⟨n + i, h⟩

theorem occurs_nil_iff (pat : List Char) : Occurs pat [] ↔ pat = [] := by
  constructor
  · rintro ⟨i, h⟩
    exact List.prefix_nil.mp (by simpa using h)
  · rintro rfl
    exact ⟨0, List.nil_prefix⟩

theorem replaceAllAux_fuel (pat repl : List Char) :
    ∀ f₁ f₂ s, s.length ≤ f₁ → s.length ≤ f₂ →
      replaceAllAux pat repl f₁ s = replaceAllAux pat repl f₂ s := by
  intro f₁
  induction f₁ with
  | zero =>
    intro f₂ s h1 _
    have : s = [] := List.length_eq_zero.mp (by omega)
    subst this
    cases f₂ <;> simp [replaceAllAux]
  | succ f ih =>
    intro f₂ s h1 h2
    cases s with
    | nil => cases f₂ <;> simp [replaceAllAux]
    | cons c t =>
      cases f₂ with
      | zero => simp at h2
      | succ f₂' =>
        simp only [replaceAllAux]
        simp only [List.length_cons] at h1 h2
        cases hcond : pat.isPrefixOf (c :: t) && !pat.isEmpty with
        | true =>
          simp only [hcond, if_true]
          refine congrArg (fun l => repl ++ l) (ih f₂' _ ?_ ?_)
          · have := List.length_drop (pat.length - 1) t
            omega
          · have := List.length_drop (pat.length - 1) t
            omega
        | false =>
          simp only [hcond, Bool.false_eq_true, if_false]
          exact congrArg (fun l => c :: l) (ih f₂' t (by omega) (by omega))

theorem tryAtoms_lit (d : Bool) :
    ∀ (lp x : List Char),
      tryAtoms d (lp.map RAtom.lit) x =
        if lp.isPrefixOf x then some (x.drop lp.length) else none := by
  intro lp
  induction lp with
  | nil => intro x; simp [tryAtoms, List.isPrefixOf]
  | cons p ps ih =>
    intro x
    cases x with
    | nil => simp [tryAtoms, List.isPrefixOf]
    | cons c t =>
      simp only [List.map_cons, tryAtoms, atomMatch, List.isPrefixOf, ih t]
      by_cases h : c = p
      · subst h
        simp
      · have h1 : (c == p) = false := by simpa using h
        have h2 : (p == c) = false := by simpa using Ne.symm h
        simp [h1, h2]

theorem reSubAux_lit (d : Bool) (lp repl : List Char) :
    ∀ fuel s, reSubAux d (lp.map RAtom.lit) repl fuel s =
      replaceAllAux lp repl fuel s := by
  intro fuel
  induction fuel with
  | zero => intro s; cases s <;> simp [reSubAux, replaceAllAux]
  | succ f ih =>
    intro s
    cases s with
    | nil => simp [reSubAux, replaceAllAux]
    | cons c t =>
      simp only [reSubAux, replaceAllAux, tryAtoms_lit]
      cases h : lp.isPrefixOf (c :: t) with
      | true =>
        cases lp with
        | nil =>
          simp only [List.map_nil, if_true, List.isEmpty, Bool.not_true,
            Bool.and_false, Bool.false_eq_true, if_false]
          exact congrArg (fun l => c :: l) (by simpa using ih t)
        | cons p ps =>
          simp only [if_true, List.map_cons, List.isEmpty, Bool.not_false,
            Bool.and_true, if_true]
          have hd : (c :: t).drop (p :: ps).length = t.drop ((p :: ps).length - 1) := by
            simp
          rw [hd]
          have := ih (t.drop ((p :: ps).length - 1))
          simp only [List.map_cons] at this
          rw [this]
      | false =>
        cases lp with
        | nil => simp [List.isPrefixOf] at h
        | cons p ps =>
          simp only [if_false, Bool.false_and, Bool.false_eq_true]
          exact congrArg (fun l => c :: l) (ih t)

theorem fix1_eq_strReplace (content : List Char) :
    fix1 content = strReplace oldLit new_func.data content := by
  unfold fix1
  rw [parseRegex_old_func]
  simp only [oldAtoms_all_lit, reSubAux_lit]
  rfl

theorem fix1_nodot_eq_strReplace (content : List Char) :
    fix1_nodot content = strReplace oldLit new_func.data content := by
  unfold fix1_nodot
  rw [parseRegex_old_func]
  simp only [oldAtoms_all_lit, reSubAux_lit]
  rfl

theorem take_isPrefix (n : Nat) (l : List Char) : l.take n <+: l :=
  ⟨l.drop n, List.take_append_drop n l⟩

theorem prefix_append_of_le {P x y : List Char} (h : P <+: x ++ y)
    (hl : P.length ≤ x.length) : P <+: x := by
  have h2 := List.prefix_iff_eq_take.mp h
  rw [List.take_append_of_le_length hl] at h2
  rw [h2]
  exact take_isPrefix _ _

theorem append_prefix_split {P x y : List Char} (h : P <+: x ++ y)
    (hl : x.length ≤ P.length) : x <+: P := by
  have h2 := List.prefix_iff_eq_take.mp h
  rw [show P.length = x.length + (P.length - x.length) by omega,
    List.take_append] at h2
  exact ⟨y.take (P.length - x.length), h2.symm⟩

theorem strReplace_nil (pat repl : List Char) : strReplace pat repl [] = [] := by
  simp [strReplace, replaceAllAux]

theorem strReplace_cons_match {pat : List Char} (repl : List Char) {c : Char}
    {t : List Char} (h : pat <+: c :: t) (hpat : pat ≠ []) :
    strReplace pat repl (c :: t) =
      repl ++ strReplace pat repl ((c :: t).drop pat.length) := by
  have hcond : (pat.isPrefixOf (c :: t) && !pat.isEmpty) = true := by
    rw [Bool.and_eq_true]
    exact ⟨List.isPrefixOf_iff_prefix.mpr h, by simpa [List.isEmpty_iff] using hpat⟩
  have hlen : pat.length ≤ t.length + 1 := by simpa using h.length_le
  have hpos : 0 < pat.length := List.length_pos.mpr hpat
  show replaceAllAux pat repl (t.length + 1) (c :: t) = _
  simp only [replaceAllAux, hcond, if_true]
  congr 1
  have hd : (c :: t).drop pat.length = t.drop (pat.length - 1) := by
    cases hp : pat with
    | nil => exact absurd hp hpat
    | cons q qs => simp [hp]
  rw [hd]
  apply replaceAllAux_fuel
  · have := List.length_drop (pat.length - 1) t
    omega
  · exact Nat.le_refl _

theorem strReplace_cons_nomatch {pat : List Char} (repl : List Char) {c : Char}
    {t : List Char} (h : ¬ pat <+: c :: t) :
    strReplace pat repl (c :: t) = c :: strReplace pat repl t := by
  have hcond : (pat.isPrefixOf (c :: t) && !pat.isEmpty) = false := by
    have : pat.isPrefixOf (c :: t) = false := by
      rw [← Bool.not_eq_true]
      intro hb
      exact h (List.isPrefixOf_iff_prefix.mp hb)
    simp [this]
  show replaceAllAux pat repl (t.length + 1) (c :: t) = _
  simp only [replaceAllAux, hcond, Bool.false_eq_true, if_false]
  rfl

theorem strReplace_id {pat : List Char} (repl : List Char) {s : List Char}
    (hno : ¬ Occurs pat s) : strReplace pat repl s = s := by
  induction s with
  | nil => exact strReplace_nil pat repl
  | cons c t ih =>
    rw [occurs_cons] at hno
    push_neg at hno
    rw [strReplace_cons_nomatch repl hno.1]
    rw [ih hno.2]

theorem replaceAllAux_length_ge {pat repl : List Char}
    (hlen : pat.length ≤ repl.length) :
    ∀ fuel s, s.length ≤ fuel →
      s.length ≤ (replaceAllAux pat repl fuel s).length := by
  intro fuel
  induction fuel with
  | zero =>
    intro s h1
    have : s = [] := List.length_eq_zero.mp (by omega)
    subst this
    simp [replaceAllAux]
  | succ f ih =>
    intro s h1
    cases s with
    | nil => simp [replaceAllAux]
    | cons c t =>
      simp only [List.length_cons] at h1
      simp only [replaceAllAux]
      cases hcond : pat.isPrefixOf (c :: t) && !pat.isEmpty with
      | true =>
        simp only [if_true]
        rw [Bool.and_eq_true] at hcond
        have hpre := List.isPrefixOf_iff_prefix.mp hcond.1
        have hple : pat.length ≤ t.length + 1 := by simpa using hpre.length_le
        have hppos : 0 < pat.length := by
          cases hp : pat with
          | nil => rw [hp] at hcond; simp [List.isEmpty] at hcond
          | cons q qs => simp [hp]
        have hrec := ih (t.drop (pat.length - 1))
          (by have := List.length_drop (pat.length - 1) t; omega)
        have hdl := List.length_drop (pat.length - 1) t
        simp only [List.length_append, List.length_cons]
        omega
      | false =>
        simp only [Bool.false_eq_true, if_false, List.length_cons]
        have := ih t (by omega)
        omega

theorem replaceAllAux_eq_or_longer {pat repl : List Char}
    (hlen : pat.length < repl.length) :
    ∀ fuel s, s.length ≤ fuel →
      replaceAllAux pat repl fuel s = s ∨
        s.length < (replaceAllAux pat repl fuel s).length := by
  intro fuel
  induction fuel with
  | zero =>
    intro s h1
    have : s = [] := List.length_eq_zero.mp (by omega)
    subst this
    simp [replaceAllAux]
  | succ f ih =>
    intro s h1
    cases s with
    | nil => simp [replaceAllAux]
    | cons c t =>
      simp only [List.length_cons] at h1
      simp only [replaceAllAux]
      cases hcond : pat.isPrefixOf (c :: t) && !pat.isEmpty with
      | true =>
        simp only [if_true]
        right
        rw [Bool.and_eq_true] at hcond
        have hpre := List.isPrefixOf_iff_prefix.mp hcond.1
        have hple : pat.length ≤ t.length + 1 := by simpa using hpre.length_le
        have hppos : 0 < pat.length := by
          cases hp : pat with
          | nil => rw [hp] at hcond; simp [List.isEmpty] at hcond
          | cons q qs => simp [hp]
        have hrec := replaceAllAux_length_ge (Nat.le_of_lt hlen) f
          (t.drop (pat.length - 1))
          (by have := List.length_drop (pat.length - 1) t; omega)
        have hdl := List.length_drop (pat.length - 1) t
        simp only [List.length_append, List.length_cons]
        omega
      | false =>
        simp only [Bool.false_eq_true, if_false]
        rcases ih t (by omega) with heq | hlt
        · left; rw [heq]
        · right; simpa using hlt

theorem strReplace_length_ge {pat repl : List Char}
    (hlen : pat.length ≤ repl.length) (s : List Char) :
    s.length ≤ (strReplace pat repl s).length :=
  replaceAllAux_length_ge hlen s.length s (Nat.le_refl _)

theorem strReplace_eq_or_longer {pat repl : List Char}
    (hlen : pat.length < repl.length) (s : List Char) :
    strReplace pat repl s = s ∨ s.length < (strReplace pat repl s).length :=
  replaceAllAux_eq_or_longer hlen s.length s (Nat.le_refl _)

theorem prefix_through_replace (pat repl : List Char) :
    ∀ fuel s v, s.length ≤ fuel → v <+: replaceAllAux pat repl fuel s →
      v <+: s ∨ ∃ r, r ≠ [] ∧ r <:+ v ∧ (r <+: repl ∨ repl <+: r) := by
  intro fuel
  induction fuel with
  | zero =>
    intro s v h1 h2
    have hs : s = [] := List.length_eq_zero.mp (by omega)
    subst hs
    simp only [replaceAllAux] at h2
    left
    exact h2
  | succ f ih =>
    intro s v h1 h2
    cases s with
    | nil =>
      simp only [replaceAllAux] at h2
      left
      exact h2
    | cons c t =>
      simp only [List.length_cons] at h1
      cases hcond : pat.isPrefixOf (c :: t) && !pat.isEmpty with
      | true =>
        simp only [replaceAllAux, hcond, if_true] at h2
        by_cases hvnil : v = []
        · left; rw [hvnil]; exact List.nil_prefix
        · right
          by_cases hv : v.length ≤ repl.length
          · exact ⟨v, hvnil, List.suffix_refl v, Or.inl (prefix_append_of_le h2 hv)⟩
          · exact ⟨v, hvnil, List.suffix_refl v,
              Or.inr (append_prefix_split h2 (by omega))⟩
      | false =>
        simp only [replaceAllAux, hcond, Bool.false_eq_true, if_false] at h2
        cases v with
        | nil => left; exact List.nil_prefix
        | cons v0 v' =>
          rw [List.cons_prefix_cons] at h2
          obtain ⟨hv0, h2'⟩ := h2
          rcases ih t v' (by omega) h2' with hL | ⟨r, hr1, hr2, hr3⟩
          · left
            exact List.cons_prefix_cons.mpr ⟨hv0, hL⟩
          · right
            exact ⟨r, hr1, hr2.trans (List.suffix_cons v0 v'), hr3⟩

theorem occurs_append_cases {P : List Char} (a b : List Char)
    (h : Occurs P (a ++ b)) :
    Occurs P a ∨ Occurs P b ∨
      ∃ u, u ≠ [] ∧ u <:+ a ∧ u <+: P ∧ u.length < P.length := by
  obtain ⟨i, hp⟩ := h
  by_cases hi : a.length ≤ i
  · right; left
    rw [show i = a.length + (i - a.length) by omega, List.drop_append] at hp
    exact ⟨i - a.length, hp⟩
  · push_neg at hi
    rw [List.drop_append_of_le_length (Nat.le_of_lt hi)] at hp
    by_cases hP : P.length ≤ (a.drop i).length
    · left
      exact ⟨i, prefix_append_of_le hp hP⟩
    · right; right
      push_neg at hP
      refine ⟨a.drop i, ?_, List.drop_suffix i a,
        append_prefix_split hp (Nat.le_of_lt hP), hP⟩
      have hpos : 0 < (a.drop i).length := by
        rw [List.length_drop]; omega
      exact List.ne_nil_of_length_pos hpos

theorem master_no_occ {P Q repl : List Char} (hnr : NoReintro P repl)
    (hQ : Q ≠ []) :
    ∀ fuel s, s.length ≤ fuel →
      (∀ i, P <+: s.drop i → Q <+: s.drop i) →
      ¬ Occurs P (replaceAllAux Q repl fuel s) := by
  obtain ⟨hP, h3, h6, h4, h5⟩ := hnr
  have h3' : ¬ Occurs P repl := (not_occurs_iff_occursB P repl).mpr h3
  have h6' : ¬ Occurs repl P := (not_occurs_iff_occursB repl P).mpr h6
  intro fuel
  induction fuel with
  | zero =>
    intro s h1 hPQ hocc
    have hs : s = [] := List.length_eq_zero.mp (by omega)
    subst hs
    simp only [replaceAllAux] at hocc
    exact hP ((occurs_nil_iff P).mp hocc)
  | succ f ih =>
    intro s h1 hPQ hocc
    cases s with
    | nil =>
      simp only [replaceAllAux] at hocc
      exact hP ((occurs_nil_iff P).mp hocc)
    | cons c t =>
      simp only [List.length_cons] at h1
      have hQpos : 0 < Q.length := List.length_pos.mpr hQ
      cases hcond : Q.isPrefixOf (c :: t) && !Q.isEmpty with
      | true =>
        simp only [replaceAllAux, hcond, if_true] at hocc
        rcases occurs_append_cases repl _ hocc with hA | hB | ⟨u, hu1, hu2, hu3, hu4⟩
        · exact h3' hA
        · refine ih (List.drop (Q.length - 1) t) ?_ ?_ hB
          · have := List.length_drop (Q.length - 1) t
            omega
          · intro i hp
            have hdd : (List.drop (Q.length - 1) t).drop i =
                t.drop (Q.length - 1 + i) := by
              rw [List.drop_drop]
            have hsh : (c :: t).drop (Q.length - 1 + i + 1) =
                t.drop (Q.length - 1 + i) := by
              simp
            rw [hdd] at hp ⊢
            rw [← hsh] at hp ⊢
            exact hPQ (Q.length - 1 + i + 1) hp
        · have hk1 := List.suffix_iff_eq_drop.mp hu2
          have hk2 := List.prefix_iff_eq_take.mp hu3
          exact h4 u.length hu4 (List.length_pos.mpr hu1) hu2.length_le
            (by rw [← hk1, ← hk2])
      | false =>
        simp only [replaceAllAux, hcond, Bool.false_eq_true, if_false] at hocc
        rw [occurs_cons] at hocc
        rcases hocc with hpre | hocc'
        · cases hPc : P with
          | nil => exact hP hPc
          | cons p0 P' =>
            rw [hPc, List.cons_prefix_cons] at hpre
            obtain ⟨hp0, hP'⟩ := hpre
            rcases prefix_through_replace Q repl f t P' (by omega) hP'
              with hL | ⟨r, hr1, hr2, hr3⟩
            · have hPpre : P <+: (c :: t).drop 0 := by
                rw [List.drop_zero, hPc, ← hp0]
                exact List.cons_prefix_cons.mpr ⟨rfl, hL⟩
              have hQpre := hPQ 0 hPpre
              rw [List.drop_zero] at hQpre
              have hcondT : (Q.isPrefixOf (c :: t) && !Q.isEmpty) = true := by
                rw [Bool.and_eq_true]
                exact ⟨List.isPrefixOf_iff_prefix.mpr hQpre,
                  by simpa [List.isEmpty_iff] using hQ⟩
              rw [hcond] at hcondT
              exact Bool.false_ne_true hcondT
            · have hrP : r <:+ P := by
                rw [hPc]
                exact hr2.trans (List.suffix_cons p0 P')
              have hlt : r.length < P.length := by
                have := hr2.length_le
                rw [hPc]
                simp only [List.length_cons]
                omega
              rcases hr3 with hrp | hpr
              · exact h5 r.length hlt (List.length_pos.mpr hr1) hrp.length_le
                  (by rw [← List.prefix_iff_eq_take.mp hrp,
                    ← List.suffix_iff_eq_drop.mp hrP])
              · refine h6' ⟨P.length - r.length, ?_⟩
                rw [← List.suffix_iff_eq_drop.mp hrP]
                exact hpr
        · refine ih t (by omega) ?_ hocc'
          intro i hp
          have hsh : (c :: t).drop (i + 1) = t.drop i := by simp
          rw [← hsh] at hp ⊢
          exact hPQ (i + 1) hp

theorem strReplace_no_occ {P repl : List Char} (hnr : NoReintro P repl)
    (s : List Char) : ¬ Occurs P (strReplace P repl s) :=
  master_no_occ hnr hnr.1 s.length s (Nat.le_refl _) (fun _ h => h)

theorem strReplace_preserve_no_occ {P Q repl : List Char}
    (hnr : NoReintro P repl) (hQ : Q ≠ []) {s : List Char}
    (hs : ¬ Occurs P s) : ¬ Occurs P (strReplace Q repl s) :=
  master_no_occ hnr hQ s.length s (Nat.le_refl _)
    (fun i hp => (hs ⟨i, hp⟩).elim)

set_option maxHeartbeats 4000000 in
theorem noReintro_old : NoReintro oldLitStr.data new_func.data := by decide

set_option maxHeartbeats 2000000 in
theorem oldLit_eq : oldLit = oldLitStr.data := by decide

set_option maxHeartbeats 2000000 in
theorem noReintro_f2 : NoReintro fix2_old.data fix2_new.data := by decide

set_option maxHeartbeats 2000000 in
theorem noReintro_f3 : NoReintro fix3_old.data fix3_new.data := by decide

set_option maxHeartbeats 4000000 in
theorem noReintro_old_f2new : NoReintro oldLitStr.data fix2_new.data := by
  decide

set_option maxHeartbeats 4000000 in
theorem noReintro_old_f3new : NoReintro oldLitStr.data fix3_new.data := by
  decide

set_option maxHeartbeats 2000000 in
theorem noReintro_f2_f3new : NoReintro fix2_old.data fix3_new.data := by
  decide

theorem strReplace_single {pat : List Char} (repl : List Char)
    (hpat : pat ≠ []) :
    ∀ a b : List Char,
      (∀ i, i ≤ (a ++ (pat ++ b)).length →
        pat <+: (a ++ (pat ++ b)).drop i → i = a.length) →
      strReplace pat repl (a ++ (pat ++ b)) = a ++ (repl ++ b) := by
  intro a
  induction a with
  | nil =>
    intro b honly
    simp only [List.nil_append, List.length_nil] at honly ⊢
    have hnoB : ¬ Occurs pat b := by
      rintro ⟨i, hp⟩
      have hp' : pat <+: (pat ++ b).drop (pat.length + i) := by
        rw [List.drop_append]
        exact hp
      have hle : pat.length + i ≤ (pat ++ b).length := by
        by_contra hgt
        rw [List.drop_eq_nil_iff.mpr (by omega)] at hp'
        exact hpat (List.prefix_nil.mp hp')
      have h0 := honly (pat.length + i) hle hp'
      have : 0 < pat.length := List.length_pos.mpr hpat
      omega
    cases hp : pat with
    | nil => exact absurd hp hpat
    | cons p0 pt =>
      rw [← hp]
      have hshape : pat ++ b = p0 :: (pt ++ b) := by rw [hp]; rfl
      rw [hshape, strReplace_cons_match repl (by rw [← hshape]; exact List.prefix_append pat b) hpat,
        ← hshape]
      have hdrop : (pat ++ b).drop pat.length = b := List.drop_left pat b
      rw [hdrop, strReplace_id repl hnoB]
  | cons x a' ih =>
    intro b honly
    have hshape : (x :: a') ++ (pat ++ b) = x :: (a' ++ (pat ++ b)) := rfl
    have hnm : ¬ pat <+: x :: (a' ++ (pat ++ b)) := by
      intro hpre
      have h0 := honly 0 (by omega) (by rw [List.drop_zero, hshape]; exact hpre)
      simp at h0
    rw [hshape, strReplace_cons_nomatch repl hnm]
    rw [ih b ?_]
    · rfl
    · intro i hi hpre
      have hb := honly (i + 1) (by rw [hshape]; simp only [List.length_cons]; omega)
        (by rw [hshape, List.drop_succ_cons]; exact hpre)
      simp only [List.length_cons] at hb
      omega

theorem fix1_eq (content : List Char) :
    fix1 content = strReplace oldLitStr.data new_func.data content := by
  rw [fix1_eq_strReplace, oldLit_eq]

theorem fix1_nodot_eq (content : List Char) :
    fix1_nodot content = strReplace oldLitStr.data new_func.data content := by
  rw [fix1_nodot_eq_strReplace, oldLit_eq]

theorem oldLitStr_ne_nil : oldLitStr.data ≠ [] := by decide

theorem fix2_old_ne_nil : fix2_old.data ≠ [] := by decide

theorem fix3_old_ne_nil : fix3_old.data ≠ [] := by decide

theorem len_old_lt_new : oldLitStr.data.length < new_func.data.length := by
  decide

theorem len_f2_lt : fix2_old.data.length < fix2_new.data.length := by decide

theorem len_f3_lt : fix3_old.data.length < fix3_new.data.length := by decide

theorem occurs_append_mid (p a b : List Char) : Occurs p (a ++ (p ++ b)) :=
  ⟨a.length, by rw [List.drop_left]; exact List.prefix_append p b⟩

/-- C1: for every input text, `apply_fixes` computes the sequential
composition of the three patch steps applied in order to the evolving text:
first the regex substitution replacing the matched multi-line `getCachedData`
definition (a fully escaped pattern, hence the fixed literal `oldLitStr`)
with the hard-coded new body, then the literal replacement adding `true` to
the `PricePoint[]` call site, then the literal replacement adding `true` to
the quote call site. -/
theorem apply_fixes_is_composition (content : List Char) :
    apply_fixes_transform content = fix3 (fix2 (fix1 content)) ∧
    fix1 content = strReplace oldLitStr.data new_func.data content ∧
    fix2 (fix1 content) =
      strReplace fix2_old.data fix2_new.data (fix1 content) ∧
    fix3 (fix2 (fix1 content)) =
      strReplace fix3_old.data fix3_new.data (fix2 (fix1 content)) :=
  ⟨rfl, fix1_eq content, rfl, rfl⟩

/-- C2: the process exit code is 0 exactly when the transformed content
differed from the original and the write succeeded; it is 1 when no
substitution changed the content and whenever an exception (missing file or
failing write) is raised, and the exit code is always defined (0 or 1), so
no exception escapes the top-level handler. -/
theorem exit_code_spec (fs : FS) :
    ((main_block fs).1 = 0 ↔
      ∃ c, fs.file = some c ∧ apply_fixes_transform c ≠ c ∧
        fs.writable = true) ∧
    ((main_block fs).1 = 0 ∨ (main_block fs).1 = 1) := by
  obtain ⟨file, writable⟩ := fs
  cases file with
  | none => exact ⟨by simp [main_block, apply_fixes], by simp [main_block, apply_fixes]⟩
  | some c =>
    by_cases hc : apply_fixes_transform c = c
    · exact ⟨by simp [main_block, apply_fixes, hc],
        by simp [main_block, apply_fixes, hc]⟩
    · cases writable
      · exact ⟨by simp [main_block, apply_fixes, hc],
          by simp [main_block, apply_fixes, hc]⟩
      · exact ⟨by simp [main_block, apply_fixes, hc],
          by simp [main_block, apply_fixes, hc]⟩

/-- C3: the on-disk file changes only on the success path, after all three
substitutions have completed in memory and produced a change; on the no-op
failure path and on every exception path reached before the final write the
file system is left untouched. -/
theorem disk_untouched_unless_success (fs : FS) :
    (main_block fs).2 = fs ∨
      ((main_block fs).1 = 0 ∧ ∃ c, fs.file = some c ∧
        apply_fixes_transform c ≠ c ∧
        (main_block fs).2.file = some (apply_fixes_transform c)) := by
  obtain ⟨file, writable⟩ := fs
  cases file with
  | none => left; simp [main_block, apply_fixes]
  | some c =>
    by_cases hc : apply_fixes_transform c = c
    · left; simp [main_block, apply_fixes, hc]
    · cases writable
      · left; simp [main_block, apply_fixes, hc]
      · right
        exact ⟨by simp [main_block, apply_fixes, hc], c, rfl, hc,
          by simp [main_block, apply_fixes, hc]⟩

/-- C4: a patch step whose matcher does not occur in the current text is a
silent no-op, and the overall run counts as changed exactly when at least
one of the three steps altered the text it was given (in particular the two
literal replacements can succeed while the regex step is a no-op). -/
theorem silent_noop_and_change_iff (t : List Char) :
    (occursB oldLitStr.data t = false → fix1 t = t) ∧
    (occursB fix2_old.data t = false → fix2 t = t) ∧
    (occursB fix3_old.data t = false → fix3 t = t) ∧
    (apply_fixes_transform t ≠ t ↔
      (fix1 t ≠ t ∨ fix2 (fix1 t) ≠ fix1 t ∨
        fix3 (fix2 (fix1 t)) ≠ fix2 (fix1 t))) := by
  refine ⟨?_, ?_, ?_, ?_⟩
  · intro h
    rw [fix1_eq]
    exact strReplace_id _ ((not_occurs_iff_occursB _ _).mpr h)
  · intro h
    exact strReplace_id _ ((not_occurs_iff_occursB _ _).mpr h)
  · intro h
    exact strReplace_id _ ((not_occurs_iff_occursB _ _).mpr h)
  · constructor
    · intro hne
      by_contra hall
      push_neg at hall
      obtain ⟨h1, h2, h3⟩ := hall
      exact hne (by
        show fix3 (fix2 (fix1 t)) = t
        rw [h3, h2, h1])
    · have l2ge : ∀ s : List Char, s.length ≤ (fix2 s).length :=
        fun s => strReplace_length_ge (Nat.le_of_lt len_f2_lt) s
      have l3ge : ∀ s : List Char, s.length ≤ (fix3 s).length :=
        fun s => strReplace_length_ge (Nat.le_of_lt len_f3_lt) s
      have l1ge : ∀ s : List Char, s.length ≤ (fix1 s).length := by
        intro s
        rw [fix1_eq]
        exact strReplace_length_ge (Nat.le_of_lt len_old_lt_new) s
      rintro (h1 | h2 | h3) <;> intro heq
      · have hlt : t.length < (fix1 t).length := by
          rcases strReplace_eq_or_longer len_old_lt_new t with he | hl
          · rw [fix1_eq] at h1; exact absurd he h1
          · rw [fix1_eq]; exact hl
        have e1 := l2ge (fix1 t)
        have e2 := l3ge (fix2 (fix1 t))
        have : (apply_fixes_transform t).length = t.length := by rw [heq]
        have hshape : apply_fixes_transform t = fix3 (fix2 (fix1 t)) := rfl
        rw [hshape] at this
        omega
      · have hlt : (fix1 t).length < (fix2 (fix1 t)).length := by
          rcases strReplace_eq_or_longer len_f2_lt (fix1 t) with he | hl
          · exact absurd he h2
          · exact hl
        have e1 := l1ge t
        have e2 := l3ge (fix2 (fix1 t))
        have : (apply_fixes_transform t).length = t.length := by rw [heq]
        have hshape : apply_fixes_transform t = fix3 (fix2 (fix1 t)) := rfl
        rw [hshape] at this
        omega
      · have hlt : (fix2 (fix1 t)).length < (fix3 (fix2 (fix1 t))).length := by
          rcases strReplace_eq_or_longer len_f3_lt (fix2 (fix1 t)) with he | hl
          · exact absurd he h3
          · exact hl
        have e1 := l1ge t
        have e2 := l2ge (fix1 t)
        have : (apply_fixes_transform t).length = t.length := by rw [heq]
        have hshape : apply_fixes_transform t = fix3 (fix2 (fix1 t)) := rfl
        rw [hshape] at this
        omega

/-- Witness for `silent_noop_and_change_iff` at the concrete text "hello":
none of the matchers occurs, so every step and the whole transform are
no-ops there. -/
theorem silent_noop_and_change_iff_witness :
    fix1 "hello".data = "hello".data ∧
    fix2 "hello".data = "hello".data ∧
    fix3 "hello".data = "hello".data :=
  ⟨(silent_noop_and_change_iff "hello".data).1 (by decide),
   (silent_noop_and_change_iff "hello".data).2.1 (by decide),
   (silent_noop_and_change_iff "hello".data).2.2.1 (by decide)⟩

theorem strReplace_head_match (pat repl b : List Char) (hpat : pat ≠ []) :
    strReplace pat repl (pat ++ b) = repl ++ strReplace pat repl b := by
  cases pat with
  | nil => exact absurd rfl hpat
  | cons p0 pt =>
    have hpre : (p0 :: pt) <+: (p0 :: pt) ++ b := List.prefix_append _ _
    have hshape : (p0 :: pt) ++ b = p0 :: (pt ++ b) := rfl
    rw [hshape] at hpre ⊢
    rw [strReplace_cons_match repl hpre hpat]
    rw [← hshape, List.drop_left]

theorem strReplace_self (pat repl : List Char) (hpat : pat ≠ []) :
    strReplace pat repl pat = repl := by
  have h := strReplace_head_match pat repl [] hpat
  rw [List.append_nil] at h
  rw [h, strReplace_nil, List.append_nil]

/-- C5: whenever a first run changes the text, a second run on the output
changes nothing: the output of the transform contains none of the three old
patterns, so every reachable output is a fixed point and the second run
reports the no-op failure outcome. -/
theorem second_run_is_noop (t : List Char)
    (_h : apply_fixes_transform t ≠ t) :
    apply_fixes_transform (apply_fixes_transform t) = apply_fixes_transform t := by
  have hshape : apply_fixes_transform t = fix3 (fix2 (fix1 t)) := rfl
  have no1 : ¬ Occurs oldLitStr.data (apply_fixes_transform t) := by
    rw [hshape]
    have s1 : ¬ Occurs oldLitStr.data (fix1 t) := by
      rw [fix1_eq]
      exact strReplace_no_occ noReintro_old t
    have s2 : ¬ Occurs oldLitStr.data (fix2 (fix1 t)) :=
      strReplace_preserve_no_occ noReintro_old_f2new fix2_old_ne_nil s1
    exact strReplace_preserve_no_occ noReintro_old_f3new fix3_old_ne_nil s2
  have no2 : ¬ Occurs fix2_old.data (apply_fixes_transform t) := by
    rw [hshape]
    have s2 : ¬ Occurs fix2_old.data (fix2 (fix1 t)) :=
      strReplace_no_occ noReintro_f2 (fix1 t)
    exact strReplace_preserve_no_occ noReintro_f2_f3new fix3_old_ne_nil s2
  have no3 : ¬ Occurs fix3_old.data (apply_fixes_transform t) := by
    rw [hshape]
    exact strReplace_no_occ noReintro_f3 (fix2 (fix1 t))
  show fix3 (fix2 (fix1 (apply_fixes_transform t))) = apply_fixes_transform t
  rw [fix1_eq, strReplace_id _ no1]
  rw [show fix2 (apply_fixes_transform t) = apply_fixes_transform t from
    strReplace_id _ no2]
  exact strReplace_id _ no3

/-- Witness for `second_run_is_noop`: the text consisting of exactly the
Fix 2 call-site fragment is changed by the first run, and the second run
leaves the result unchanged. -/
theorem second_run_is_noop_witness :
    apply_fixes_transform fix2_old.data ≠ fix2_old.data ∧
    apply_fixes_transform (apply_fixes_transform fix2_old.data) =
      apply_fixes_transform fix2_old.data :=
  ⟨by decide, second_run_is_noop fix2_old.data (by decide)⟩

/-- C10: each of the three substitution steps is global: no occurrence of
its pattern survives in its output (for any input), and on a text made of
two adjacent copies of the pattern both copies are replaced, not only the
first. -/
theorem steps_replace_all_occurrences (s : List Char) :
    occursB oldLitStr.data (fix1 s) = false ∧
    occursB fix2_old.data (fix2 s) = false ∧
    occursB fix3_old.data (fix3 s) = false ∧
    fix1 (oldLitStr.data ++ oldLitStr.data) = new_func.data ++ new_func.data ∧
    fix2 (fix2_old.data ++ fix2_old.data) = fix2_new.data ++ fix2_new.data ∧
    fix3 (fix3_old.data ++ fix3_old.data) = fix3_new.data ++ fix3_new.data := by
  refine ⟨?_, ?_, ?_, ?_, ?_, ?_⟩
  · rw [fix1_eq]
    exact (not_occurs_iff_occursB _ _).mp (strReplace_no_occ noReintro_old s)
  · exact (not_occurs_iff_occursB _ _).mp (strReplace_no_occ noReintro_f2 s)
  · exact (not_occurs_iff_occursB _ _).mp (strReplace_no_occ noReintro_f3 s)
  · rw [fix1_eq, strReplace_head_match _ _ _ oldLitStr_ne_nil,
      strReplace_self _ _ oldLitStr_ne_nil]
  · show strReplace _ _ _ = _
    rw [strReplace_head_match _ _ _ fix2_old_ne_nil,
      strReplace_self _ _ fix2_old_ne_nil]
  · show strReplace _ _ _ = _
    rw [strReplace_head_match _ _ _ fix3_old_ne_nil,
      strReplace_self _ _ fix3_old_ne_nil]

theorem occurs_append_left {p a : List Char} (b : List Char)
    (h : Occurs p a) : Occurs p (a ++ b) := by
  obtain ⟨i, hp⟩ := h
  by_cases hi : i ≤ a.length
  · exact ⟨i, by
      rw [List.drop_append_of_le_length hi]
      exact hp.trans (List.prefix_append _ _)⟩
  · rw [List.drop_eq_nil_iff.mpr (by omega)] at hp
    rw [List.prefix_nil.mp hp]
    exact ⟨0, List.nil_prefix⟩

theorem occurs_append_right {p b : List Char} (a : List Char)
    (h : Occurs p b) : Occurs p (a ++ b) := by
  obtain ⟨i, hp⟩ := h
  exact ⟨a.length + i, by rw [List.drop_append]; exact hp⟩

theorem onlyAtAux_sound {pat : List Char} (hpat : pat ≠ []) (j : Nat) :
    ∀ (s : List Char) (i0 : Nat), onlyAtAux pat j i0 s = true →
      ∀ k, pat <+: s.drop k → i0 + k = j := by
  intro s
  induction s with
  | nil =>
    intro i0 _ k hp
    rw [List.drop_nil] at hp
    exact absurd (List.prefix_nil.mp hp) hpat
  | cons c t ih =>
    intro i0 h k hp
    simp only [onlyAtAux, Bool.and_eq_true] at h
    obtain ⟨h1, h2⟩ := h
    cases k with
    | zero =>
      rw [List.drop_zero] at hp
      have hpre : pat.isPrefixOf (c :: t) = true :=
        List.isPrefixOf_iff_prefix.mpr hp
      rw [hpre] at h1
      simp only [Bool.not_true, Bool.false_or, beq_iff_eq] at h1
      omega
    | succ k' =>
      have := ih (i0 + 1) h2 k' (by simpa using hp)
      omega

theorem onlyAt_sound {pat : List Char} (hpat : pat ≠ []) (j : Nat)
    (s : List Char) (h : onlyAt pat s j = true) :
    ∀ i, i ≤ s.length → pat <+: s.drop i → i = j := by
  intro i _ hp
  have := onlyAtAux_sound hpat j s 0 h i hp
  omega

/-- C6: on an input that decomposes as surrounding regions around single
occurrences of the three old patterns (the hypotheses say each pattern
occurs exactly at its designated position), the transform yields the text
with each old pattern replaced by its new pattern and every byte outside the
three matched spans unchanged; the output contains every new pattern. -/
theorem frame_exact_patch (x y z w : List Char)
    (h1 : ∀ i, i ≤ (x ++ (oldLitStr.data ++ (y ++ (fix2_old.data ++
        (z ++ (fix3_old.data ++ w)))))).length →
      oldLitStr.data <+: (x ++ (oldLitStr.data ++ (y ++ (fix2_old.data ++
        (z ++ (fix3_old.data ++ w)))))).drop i → i = x.length)
    (h2 : ∀ i, i ≤ ((x ++ (new_func.data ++ y)) ++ (fix2_old.data ++
        (z ++ (fix3_old.data ++ w)))).length →
      fix2_old.data <+: ((x ++ (new_func.data ++ y)) ++ (fix2_old.data ++
        (z ++ (fix3_old.data ++ w)))).drop i →
      i = (x ++ (new_func.data ++ y)).length)
    (h3 : ∀ i, i ≤ ((x ++ (new_func.data ++ (y ++ (fix2_new.data ++ z)))) ++
        (fix3_old.data ++ w)).length →
      fix3_old.data <+: ((x ++ (new_func.data ++ (y ++ (fix2_new.data ++
        z)))) ++ (fix3_old.data ++ w)).drop i →
      i = (x ++ (new_func.data ++ (y ++ (fix2_new.data ++ z)))).length) :
    apply_fixes_transform (x ++ (oldLitStr.data ++ (y ++ (fix2_old.data ++
        (z ++ (fix3_old.data ++ w)))))) =
      x ++ (new_func.data ++ (y ++ (fix2_new.data ++
        (z ++ (fix3_new.data ++ w))))) ∧
    occursB new_func.data (x ++ (new_func.data ++ (y ++ (fix2_new.data ++
      (z ++ (fix3_new.data ++ w)))))) = true ∧
    occursB fix2_new.data (x ++ (new_func.data ++ (y ++ (fix2_new.data ++
      (z ++ (fix3_new.data ++ w)))))) = true ∧
    occursB fix3_new.data (x ++ (new_func.data ++ (y ++ (fix2_new.data ++
      (z ++ (fix3_new.data ++ w)))))) = true := by
  have e1 : fix1 (x ++ (oldLitStr.data ++ (y ++ (fix2_old.data ++
      (z ++ (fix3_old.data ++ w)))))) =
      x ++ (new_func.data ++ (y ++ (fix2_old.data ++
        (z ++ (fix3_old.data ++ w))))) := by
    rw [fix1_eq]
    exact strReplace_single new_func.data oldLitStr_ne_nil x _ h1
  have eshape2 : x ++ (new_func.data ++ (y ++ (fix2_old.data ++
      (z ++ (fix3_old.data ++ w))))) =
      (x ++ (new_func.data ++ y)) ++ (fix2_old.data ++
        (z ++ (fix3_old.data ++ w))) := by
    simp [List.append_assoc]
  have e2 : fix2 (fix1 (x ++ (oldLitStr.data ++ (y ++ (fix2_old.data ++
      (z ++ (fix3_old.data ++ w))))))) =
      (x ++ (new_func.data ++ y)) ++ (fix2_new.data ++
        (z ++ (fix3_old.data ++ w))) := by
    rw [e1, eshape2]
    exact strReplace_single fix2_new.data fix2_old_ne_nil _ _ h2
  have eshape3 : (x ++ (new_func.data ++ y)) ++ (fix2_new.data ++
      (z ++ (fix3_old.data ++ w))) =
      (x ++ (new_func.data ++ (y ++ (fix2_new.data ++ z)))) ++
        (fix3_old.data ++ w) := by
    simp [List.append_assoc]
  have e3 : fix3 (fix2 (fix1 (x ++ (oldLitStr.data ++ (y ++ (fix2_old.data ++
      (z ++ (fix3_old.data ++ w)))))))) =
      (x ++ (new_func.data ++ (y ++ (fix2_new.data ++ z)))) ++
        (fix3_new.data ++ w) := by
    rw [e2, eshape3]
    exact strReplace_single fix3_new.data fix3_old_ne_nil _ _ h3
  have eshape4 : (x ++ (new_func.data ++ (y ++ (fix2_new.data ++ z)))) ++
      (fix3_new.data ++ w) =
      x ++ (new_func.data ++ (y ++ (fix2_new.data ++
        (z ++ (fix3_new.data ++ w))))) := by
    simp [List.append_assoc]
  refine ⟨?_, ?_, ?_, ?_⟩
  · show fix3 (fix2 (fix1 _)) = _
    rw [e3, eshape4]
  · exact (occurs_iff_occursB _ _).mp (occurs_append_mid new_func.data x _)
  · rw [show x ++ (new_func.data ++ (y ++ (fix2_new.data ++
        (z ++ (fix3_new.data ++ w))))) =
        (x ++ (new_func.data ++ y)) ++ (fix2_new.data ++
          (z ++ (fix3_new.data ++ w))) by simp [List.append_assoc]]
    exact (occurs_iff_occursB _ _).mp (occurs_append_mid fix2_new.data _ _)
  · rw [show x ++ (new_func.data ++ (y ++ (fix2_new.data ++
        (z ++ (fix3_new.data ++ w))))) =
        (x ++ (new_func.data ++ (y ++ (fix2_new.data ++ z)))) ++
          (fix3_new.data ++ w) by simp [List.append_assoc]]
    exact (occurs_iff_occursB _ _).mp (occurs_append_mid fix3_new.data _ _)

set_option maxHeartbeats 4000000 in
/-- Witness for `frame_exact_patch`: one-character surrounding regions; the
uniqueness hypotheses hold by computation and the transform rewrites exactly
the three spans. -/
theorem frame_exact_patch_witness :
    apply_fixes_transform ("A".data ++ (oldLitStr.data ++ ("B".data ++
        (fix2_old.data ++ ("C".data ++ (fix3_old.data ++ "D".data)))))) =
      "A".data ++ (new_func.data ++ ("B".data ++ (fix2_new.data ++
        ("C".data ++ (fix3_new.data ++ "D".data))))) :=
  (frame_exact_patch "A".data "B".data "C".data "D".data
    (onlyAt_sound oldLitStr_ne_nil _ _ (by decide))
    (onlyAt_sound fix2_old_ne_nil _ _ (by decide))
    (onlyAt_sound fix3_old_ne_nil _ _ (by decide))).1

set_option maxHeartbeats 4000000 in
/-- C7: on the minimal input consisting of exactly the old function body and
the two call-site fragments, one run produces the text in which
`getCachedData` takes a second boolean parameter `ignoreExpiry` defaulting
to `false`, an early bypass branch for it exists, both call sites pass
`true`, and the process exits with code 0 after writing that text back. -/
theorem minimal_scenario :
    main_block ⟨some t_min, true⟩ = (0, ⟨some t_min_out, true⟩) ∧
    occursB "function getCachedData<T>(key: string, ignoreExpiry: boolean = false)".data
      t_min_out = true ∧
    occursB "if (ignoreExpiry) \x7b".data t_min_out = true ∧
    occursB fix2_new.data t_min_out = true ∧
    occursB fix3_new.data t_min_out = true := by
  have e1 : fix1 t_min = new_func.data ++ ("\n".data ++ (fix2_old.data ++
      ("\n".data ++ (fix3_old.data ++ "\n".data)))) := by
    show fix1 (oldLitStr.data ++ ("\n".data ++ (fix2_old.data ++
      ("\n".data ++ (fix3_old.data ++ "\n".data))))) = _
    rw [fix1_eq, strReplace_head_match _ _ _ oldLitStr_ne_nil]
    exact congrArg (fun l => new_func.data ++ l)
      (strReplace_id _ ((not_occurs_iff_occursB _ _).mpr (by decide)))
  have e2 : fix2 (fix1 t_min) = (new_func.data ++ "\n".data) ++
      (fix2_new.data ++ ("\n".data ++ (fix3_old.data ++ "\n".data))) := by
    rw [e1, show new_func.data ++ ("\n".data ++ (fix2_old.data ++
        ("\n".data ++ (fix3_old.data ++ "\n".data)))) =
        (new_func.data ++ "\n".data) ++ (fix2_old.data ++
          ("\n".data ++ (fix3_old.data ++ "\n".data)))
      by simp [List.append_assoc]]
    exact strReplace_single fix2_new.data fix2_old_ne_nil _ _
      (onlyAt_sound fix2_old_ne_nil _ _ (by decide))
  have e3 : fix3 (fix2 (fix1 t_min)) = ((new_func.data ++ "\n".data) ++
      (fix2_new.data ++ "\n".data)) ++ (fix3_new.data ++ "\n".data) := by
    rw [e2, show (new_func.data ++ "\n".data) ++ (fix2_new.data ++
        ("\n".data ++ (fix3_old.data ++ "\n".data))) =
        ((new_func.data ++ "\n".data) ++ (fix2_new.data ++ "\n".data)) ++
          (fix3_old.data ++ "\n".data)
      by simp [List.append_assoc]]
    exact strReplace_single fix3_new.data fix3_old_ne_nil _ _
      (onlyAt_sound fix3_old_ne_nil _ _ (by decide))
  have etr : apply_fixes_transform t_min = t_min_out := by
    show fix3 (fix2 (fix1 t_min)) = t_min_out
    rw [e3]
    simp [t_min_out, List.append_assoc]
  have hne : t_min_out ≠ t_min := by decide
  refine ⟨?_, ?_, ?_, ?_, ?_⟩
  · have happ : apply_fixes ⟨some t_min, true⟩ =
        (Except.ok true, ⟨some t_min_out, true⟩) := by
      simp [apply_fixes, etr, hne]
    simp [main_block, happ]
  · exact (occurs_iff_occursB _ _).mp (occurs_append_left _
      ((occurs_iff_occursB _ _).mpr (by decide)))
  · exact (occurs_iff_occursB _ _).mp (occurs_append_left _
      ((occurs_iff_occursB _ _).mpr (by decide)))
  · rw [show t_min_out = (new_func.data ++ "\n".data) ++ (fix2_new.data ++
        ("\n".data ++ (fix3_new.data ++ "\n".data)))
      by simp [t_min_out, List.append_assoc]]
    exact (occurs_iff_occursB _ _).mp (occurs_append_mid fix2_new.data _ _)
  · rw [show t_min_out = ((new_func.data ++ "\n".data) ++ (fix2_new.data ++
        "\n".data)) ++ (fix3_new.data ++ "\n".data)
      by simp [t_min_out, List.append_assoc]]
    exact (occurs_iff_occursB _ _).mp (occurs_append_mid fix3_new.data _ _)

/-- C8 counterexample: the claim says that without the dot-matches-all flag
the regex step produces no change on the intended input.  In fact the
pattern contains no unescaped dot (every metacharacter is escaped), so even
without the flag the step replaces the old function body. -/
theorem dotall_without_flag_still_matches :
    fix1_nodot oldLitStr.data = new_func.data ∧
    fix1_nodot oldLitStr.data ≠ oldLitStr.data := by
  have h : fix1_nodot oldLitStr.data = new_func.data := by
    rw [fix1_nodot_eq]
    exact strReplace_self _ _ oldLitStr_ne_nil
  refine ⟨h, ?_⟩
  rw [h]
  decide

/-- C8 amended: because the Fix 1 pattern is fully escaped and contains no
dot metacharacter, the substitution behaves identically with and without the
dot-matches-all flag on every input. -/
theorem dotall_flag_irrelevant (t : List Char) : fix1_nodot t = fix1 t := by
  rw [fix1_nodot_eq, fix1_eq]

/-- C9 counterexample: the path constant's separator is the backslash, which
is not the separator of a POSIX host, so the constant does not use "the host
platform's separator" on every platform the tool can run on. -/
theorem file_path_sep_not_posix :
    ('\\' ∈ sepChars FILE_PATH.data) ∧ ('\\' : Char) ≠ Platform.posix.sep := by
  decide

/-- C9 amended: the target path is a compiled-in relative constant written
with the Windows backslash separator (three of them, and no forward slash),
which matches the host separator only on Windows. -/
theorem file_path_windows_relative :
    sepChars FILE_PATH.data = ['\\', '\\', '\\'] ∧
    Platform.windows.sep = '\\' ∧ Platform.posix.sep = '/' ∧
    isRelativePath FILE_PATH.data = true := by decide
